import Mathlib

/-!
Verification of the codec core of the py-serial repository
(`src/core/encoding_handler.py`): the incremental `EncodingHandler`
decoder and the stateless `bytes_to_hex` / `hex_to_bytes` /
`text_to_bytes` converters.

Bytes are modelled as `Nat` (with `< 256` hypotheses where the byte
range matters), Python `bytes` as `List Nat`, Python `str` as Lean
`String`.  The CPython incremental decoders used by the source
(`codecs.getincrementaldecoder(enc)('ignore')`) are modelled as
explicit byte-at-a-time state machines whose state is the buffer of
pending (incomplete-prefix) bytes; the `'ignore'` error handler makes
them total, and the `try/except` in `EncodingHandler.decode` is
modelled with `Except`.
-/

namespace PySerial

/-- Supported codecs of the program: the spec and the source restrict the
configured encoding to GBK and UTF-8. -/
inductive Codec where
  | gbk : Codec
  | utf8 : Codec
deriving DecidableEq, Fintype

/-- Lookup of `codecs.getincrementaldecoder(name)` for the encodings the
program supports (names already lowercased by the caller); `none` models
`LookupError` for any other name. -/
def codecOf (s : String) : Option Codec :=
  if s = "gbk" then some Codec.gbk
  else if s = "utf-8" ∨ s = "utf8" then some Codec.utf8
  else none

/-- Total sequence length for a UTF-8 lead byte; `none` for a byte that can
never start a sequence (continuation bytes, 0xC0-0xC1, 0xF5-0xFF). -/
def utf8SeqLen (b : Nat) : Option Nat :=
  if b ≤ 0x7F then some 1
  else if 0xC2 ≤ b ∧ b ≤ 0xDF then some 2
  else if 0xE0 ≤ b ∧ b ≤ 0xEF then some 3
  else if 0xF0 ≤ b ∧ b ≤ 0xF4 then some 4
  else none

/-- Lower bound of the first continuation byte after `lead` (tight bounds
exclude overlong encodings and code points above U+10FFFF). -/
def utf8ContLo (lead : Nat) : Nat :=
  if lead = 0xE0 then 0xA0 else if lead = 0xF0 then 0x90 else 0x80

/-- Upper bound of the first continuation byte after `lead` (tight bounds
exclude surrogates and code points above U+10FFFF). -/
def utf8ContHi (lead : Nat) : Nat :=
  if lead = 0xED then 0x9F else if lead = 0xF4 then 0x8F else 0xBF

/-- Validity of `b` as the `pos`-th continuation byte (1-based) of a
sequence led by `lead`. -/
def utf8ContOk (lead pos b : Nat) : Bool :=
  if pos = 1 then decide (utf8ContLo lead ≤ b ∧ b ≤ utf8ContHi lead)
  else decide (0x80 ≤ b ∧ b ≤ 0xBF)

/-- Code point of a complete UTF-8 sequence given as its byte list. -/
def utf8CodePoint : List Nat → Nat
  | [b1] => b1
  | [b1, b2] => (b1 - 0xC0) * 0x40 + (b2 - 0x80)
  | [b1, b2, b3] => (b1 - 0xE0) * 0x1000 + (b2 - 0x80) * 0x40 + (b3 - 0x80)
  | [b1, b2, b3, b4] =>
      (b1 - 0xF0) * 0x40000 + (b2 - 0x80) * 0x1000 + (b3 - 0x80) * 0x40 + (b4 - 0x80)
  | _ => 0

/-- Step of the UTF-8 machine on byte `b` with no pending bytes: ASCII is
emitted, a valid lead byte becomes pending, an invalid byte is an error
unit (`err` is `[]` for the `'ignore'` handler of the source and
`[U+FFFD]` for `'replace'`). -/
def utf8Fresh (err : List Char) (b : Nat) : List Char × List Nat :=
  if b ≤ 0x7F then ([Char.ofNat b], [])
  else
    match utf8SeqLen b with
    | some _ => ([], [b])
    | none => (err, [])

/-- Step of the UTF-8 machine: on an invalid continuation byte the pending
prefix is one error unit and the current byte is reprocessed as a fresh
lead, matching CPython's maximal-subpart policy. -/
def utf8Step (err : List Char) (pending : List Nat) (b : Nat) : List Char × List Nat :=
  match pending with
  | [] => utf8Fresh err b
  | lead :: rest =>
    if utf8ContOk lead (rest.length + 1) b then
      match utf8SeqLen lead with
      | some n =>
        if rest.length + 2 = n then
          ([Char.ofNat (utf8CodePoint ((lead :: rest) ++ [b]))], [])
        else ([], (lead :: rest) ++ [b])
      | none => (err, [])
    else
      ((err ++ (utf8Fresh err b).1), (utf8Fresh err b).2)

/-- Modelled from the spec: the GBK double-byte code-point table lives in
the CPython codec data, outside this repository; the claims here concern
the byte-stream structure only, so the table is modelled as an injective
map from structurally valid byte pairs into plane-1 code points. -/
def gbkChar (l t : Nat) : Char := Char.ofNat (0x10000 + l * 0x100 + t)

/-- Validity of a GBK trailing byte: 0x40-0xFE except 0x7F. -/
def gbkTrailOk (b : Nat) : Bool :=
  decide ((0x40 ≤ b ∧ b ≤ 0xFE) ∧ b ≠ 0x7F)

/-- Step of the GBK machine on byte `b` with no pending lead: ASCII is
emitted, 0x80 is the euro sign (CP936 extension kept by CPython's gbk
codec), 0x81-0xFE becomes a pending lead, 0xFF is an error unit. -/
def gbkFresh (err : List Char) (b : Nat) : List Char × List Nat :=
  if b ≤ 0x7F then ([Char.ofNat b], [])
  else if b = 0x80 then ([Char.ofNat 0x20AC], [])
  else if b ≤ 0xFE then ([], [b])
  else (err, [])

/-- Step of the GBK machine: a pending lead plus a valid trail emits one
character; an invalid trail makes the lead one error unit and the current
byte is reprocessed as a fresh lead. -/
def gbkStep (err : List Char) (pending : List Nat) (b : Nat) : List Char × List Nat :=
  match pending with
  | [] => gbkFresh err b
  | lead :: _ =>
    if gbkTrailOk b then ([gbkChar lead b], [])
    else ((err ++ (gbkFresh err b).1), (gbkFresh err b).2)

/-- One step of the incremental decoder of codec `c`. -/
def Codec.step (err : List Char) (c : Codec) (pending : List Nat) (b : Nat) :
    List Char × List Nat :=
  match c with
  | Codec.gbk => gbkStep err pending b
  | Codec.utf8 => utf8Step err pending b

/-- Run the incremental decoder over a byte list starting from a pending
buffer, returning the emitted characters and the new pending buffer. -/
def processBytes (err : List Char) (c : Codec) : List Nat → List Nat → List Char × List Nat
  | pending, [] => ([], pending)
  | pending, b :: bs =>
    ((Codec.step err c pending b).1 ++ (processBytes err c (Codec.step err c pending b).2 bs).1,
     (processBytes err c (Codec.step err c pending b).2 bs).2)

/-- One call of a CPython incremental decoder: process the pending buffer
followed by `data`; when `final` is true a leftover incomplete prefix is
one error unit and the buffer is cleared. -/
def runDecoder (err : List Char) (c : Codec) (pending data : List Nat) (final : Bool) :
    List Char × List Nat :=
  if final then
    ((processBytes err c pending data).1 ++
       (if (processBytes err c pending data).2.isEmpty then [] else err),
     [])
  else processBytes err c pending data

/-- Unicode replacement character U+FFFD, the error unit of the
`errors='replace'` handler. -/
def replacementChar : Char := Char.ofNat 0xFFFD

/-- Python `str.lower()`, modelled character-wise (the program only ever
lowercases ASCII encoding names such as GBK and UTF-8). -/
def lowerString (s : String) : String := String.mk (s.data.map Char.toLower)

/-- Decoder state of `EncodingHandler`: the lowercased encoding name
(`self._encoding`) and the pending bytes buffered inside
`self._decoder` (the carry buffer). -/
structure EncodingHandler where
  encoding : String
  carry : List Nat
deriving DecidableEq

/-- Constructor `EncodingHandler.__init__`: lowercase the encoding and
create a fresh incremental decoder (empty carry). -/
def EncodingHandler.init (enc : String) : EncodingHandler :=
  { encoding := lowerString enc, carry := [] }

/-- Method `reset`: a fresh incremental decoder for the current encoding,
so the carry buffer is cleared. -/
def EncodingHandler.reset (h : EncodingHandler) : EncodingHandler :=
  { encoding := h.encoding, carry := [] }

/-- Property setter `encoding`: lowercase the new value; when it differs
from the current encoding, store it and reset, otherwise do nothing. -/
def EncodingHandler.setEncoding (h : EncodingHandler) (value : String) : EncodingHandler :=
  if lowerString value ≠ h.encoding then { encoding := lowerString value, carry := [] } else h

/-- Call `self._decoder.decode(data, final)` inside the `try` block.  The
decoder was constructed with the `'ignore'` error handler, which never
raises in CPython, so the attempt is always `Except.ok`; the `Except`
shape records the `try/except` structure of the source. -/
def decodeAttempt (c : Codec) (pending data : List Nat) (final : Bool) :
    Except Unit (List Char × List Nat) :=
  Except.ok (runDecoder [] c pending data final)

/-- Whole-chunk `data.decode(encoding, errors='replace')` used by the
`except` branch of `EncodingHandler.decode`. -/
def replaceDecode (c : Codec) (data : List Nat) : List Char :=
  (runDecoder [replacementChar] c [] data true).1

/-- Method `EncodingHandler.decode`: look up the incremental decoder for
the stored encoding (`none` models a `LookupError` for an unsupported
name), try the incremental decode, and on an internal fault reset the
state and fall back to a whole-chunk decode with replacement. -/
def EncodingHandler.decode (h : EncodingHandler) (data : List Nat) (final : Bool) :
    Option (String × EncodingHandler) :=
  match codecOf h.encoding with
  | none => none
  | some c =>
    match decodeAttempt c h.carry data final with
    | Except.ok r => some (String.mk r.1, { encoding := h.encoding, carry := r.2 })
    | Except.error _ => some (String.mk (replaceDecode c data), { encoding := h.encoding, carry := [] })

/-- Uppercase hexadecimal digit for a value below 16. -/
def hexDigitChar (n : Nat) : Char :=
  if n < 10 then Char.ofNat (48 + n) else Char.ofNat (55 + n)

/-- Python `f'{b:02X}'` for a byte value: two uppercase hex digits. -/
def byteHex (b : Nat) : String :=
  String.mk [hexDigitChar (b / 16), hexDigitChar (b % 16)]

/-- Single-space separator string used by `' '.join(...)`. -/
def spaceString : String := " "

/-- Function `bytes_to_hex`: `' '.join(f'{b:02X}' for b in data) + ' '`
when `data` is nonempty, the empty string otherwise. -/
def bytes_to_hex (data : List Nat) : String :=
  if data.isEmpty then String.mk []
  else String.intercalate spaceString (data.map byteHex) ++ spaceString

/-- Membership of a character in the class `[0-9A-Fa-f]` kept by the
regular-expression filter of `hex_to_bytes`. -/
def isHexDigitChar (c : Char) : Bool :=
  decide (('0' ≤ c ∧ c ≤ '9') ∨ ('A' ≤ c ∧ c ≤ 'F') ∨ ('a' ≤ c ∧ c ≤ 'f'))

/-- Value of a hexadecimal digit character, as `int(s, 16)` computes it on
characters of the class `[0-9A-Fa-f]`. -/
def hexCharVal (c : Char) : Nat :=
  if c ≤ '9' then c.toNat - 48
  else if c ≤ 'F' then c.toNat - 55
  else c.toNat - 87

/-- Parse consecutive digit pairs into byte values; a trailing unpaired
digit produces nothing (the source pads to even length before calling
this, so the `int(byte_str, 16)` of the source never fails here). -/
def hexPairsToBytes : List Char → List Nat
  | c1 :: c2 :: rest => (hexCharVal c1 * 16 + hexCharVal c2) :: hexPairsToBytes rest
  | _ => []

/-- Function `hex_to_bytes`: strip every character outside `[0-9A-Fa-f]`,
return empty bytes when nothing survives, pad an odd digit count with a
trailing `'0'` nibble, then parse consecutive pairs. -/
def hex_to_bytes (s : String) : List Nat :=
  if (s.data.filter isHexDigitChar).isEmpty then []
  else
    hexPairsToBytes
      (if (s.data.filter isHexDigitChar).length % 2 ≠ 0 then
        (s.data.filter isHexDigitChar) ++ ['0']
      else (s.data.filter isHexDigitChar))

/-- UTF-8 encoding of one character. -/
def utf8EncodeChar (ch : Char) : List Nat :=
  if ch.toNat ≤ 0x7F then [ch.toNat]
  else if ch.toNat ≤ 0x7FF then
    [0xC0 + ch.toNat / 0x40, 0x80 + ch.toNat % 0x40]
  else if ch.toNat ≤ 0xFFFF then
    [0xE0 + ch.toNat / 0x1000, 0x80 + ch.toNat / 0x40 % 0x40, 0x80 + ch.toNat % 0x40]
  else
    [0xF0 + ch.toNat / 0x40000, 0x80 + ch.toNat / 0x1000 % 0x40,
     0x80 + ch.toNat / 0x40 % 0x40, 0x80 + ch.toNat % 0x40]

/-- Modelled from the spec: the GBK encode table is CPython codec data,
outside this repository; modelled so that basic-plane characters are
encodable and astral characters (beyond U+FFFF, absent from GBK) are
not. -/
def gbkEncodable (ch : Char) : Bool := decide (ch.toNat ≤ 0xFFFF)

/-- Modelled from the spec: GBK encodes ASCII as one byte and every other
encodable character as two bytes; only the two-byte length is relevant to
the claims, so the pair is modelled as the big-endian code-point split. -/
def gbkEncodeChar (ch : Char) : List Nat :=
  if ch.toNat ≤ 0x7F then [ch.toNat] else [ch.toNat / 0x100, ch.toNat % 0x100]

/-- Strict (no error handler) encoding of one character; `none` models a
`UnicodeEncodeError`. -/
def strictEncodeChar (c : Codec) (ch : Char) : Option (List Nat) :=
  match c with
  | Codec.utf8 => some (utf8EncodeChar ch)
  | Codec.gbk => if gbkEncodable ch then some (gbkEncodeChar ch) else none

/-- Strict `text.encode(encoding)`: fails as soon as one character is
unencodable. -/
def strictEncode (c : Codec) : List Char → Option (List Nat)
  | [] => some []
  | ch :: rest =>
    match strictEncodeChar c ch, strictEncode c rest with
    | some bs, some rs => some (bs ++ rs)
    | _, _ => none

/-- Per-character encoding under `errors='replace'`: an unencodable
character becomes the single byte `'?'` (0x3F), as CPython's replace
handler does for byte codecs. -/
def replaceEncodeChar (c : Codec) (ch : Char) : List Nat :=
  match strictEncodeChar c ch with
  | some bs => bs
  | none => [0x3F]

/-- Function `text_to_bytes`: try `text.encode(encoding.lower())`; on any
exception fall back to `text.encode(encoding.lower(), errors='replace')`.
An unknown encoding raises `LookupError` in both attempts (modelled as
`none`). -/
def text_to_bytes (text : List Char) (encoding : String) : Option (List Nat) :=
  match codecOf (lowerString encoding) with
  | none => none
  | some c =>
    match strictEncode c text with
    | some bs => some bs
    | none => some ((text.map (replaceEncodeChar c)).flatten)

/-- Positional validity of a list of continuation bytes after `lead`,
starting at continuation position `pos`. -/
def utf8ContsOk (lead : Nat) : Nat → List Nat → Bool
  | _, [] => true
  | pos, b :: bs => utf8ContOk lead pos b && utf8ContsOk lead (pos + 1) bs

/-- Well-formedness of the UTF-8 pending buffer: empty, or a strictly
incomplete prefix (valid lead plus valid continuations, fewer than the
sequence needs). -/
def utf8PendingOk : List Nat → Bool
  | [] => true
  | lead :: rest =>
    match utf8SeqLen lead with
    | some n => decide (2 ≤ n) && decide (rest.length + 1 < n) && utf8ContsOk lead 1 rest
    | none => false

/-- Well-formedness of the GBK pending buffer: empty or a single lead
byte. -/
def gbkPendingOk : List Nat → Bool
  | [] => true
  | [l] => decide (0x81 ≤ l ∧ l ≤ 0xFE)
  | _ => false

/-- Well-formedness of the pending buffer of codec `c`. -/
def Codec.pendingOk (c : Codec) : List Nat → Bool :=
  match c with
  | Codec.gbk => gbkPendingOk
  | Codec.utf8 => utf8PendingOk

/-- Whether a byte list is exactly one complete decodable sequence of
codec `c`. -/
def decodesToChar (c : Codec) (bs : List Nat) : Bool :=
  match c with
  | Codec.utf8 =>
    match bs with
    | [] => false
    | lead :: rest =>
      match utf8SeqLen lead with
      | some n => decide (rest.length + 1 = n) && utf8ContsOk lead 1 rest
      | none => false
  | Codec.gbk =>
    match bs with
    | [b] => decide (b ≤ 0x80)
    | [l, t] => decide (0x81 ≤ l ∧ l ≤ 0xFE) && gbkTrailOk t
    | _ => false

/-- Invariant of a handler: for the supported encodings, the carry buffer
is a well-formed pending buffer of the active codec. -/
def carryOk (h : EncodingHandler) : Prop :=
  ∀ c : Codec, codecOf h.encoding = some c → Codec.pendingOk c h.carry = true

/-- Length the encoding of `text` would have if every character were
representable in the codec (the counterfactual named by the spec): the
UTF-8 length, or one byte per ASCII character and two per other character
for GBK. -/
def lenIfRepresentable (c : Codec) (text : List Char) : Nat :=
  match c with
  | Codec.utf8 => (text.map (fun ch => (utf8EncodeChar ch).length)).sum
  | Codec.gbk => (text.map (fun ch => if ch.toNat ≤ 0x7F then 1 else 2)).sum

/-- Uppercase hexadecimal digit class, for stating the output format of
`bytes_to_hex`. -/
def isUpperHexDigit (c : Char) : Bool :=
  decide (('0' ≤ c ∧ c ≤ '9') ∨ ('A' ≤ c ∧ c ≤ 'F'))

/-- Expansion of one token of the reference decoder run under a concrete
error unit: a decoded character (`some ch`) stands for itself, and an
error token (`none`, one consultation of the error handler) becomes the
handler's unit — `[]` for `'ignore'`, `[U+FFFD]` for `'replace'`. -/
def expandTok (err : List Char) : Option Char → List Char
  | some ch => [ch]
  | none => err

/-- Token form of `utf8Fresh`: emits the error token `none` exactly where
`utf8Fresh` consults the error handler. -/
def utf8FreshTok (b : Nat) : List (Option Char) × List Nat :=
  if b ≤ 0x7F then ([some (Char.ofNat b)], [])
  else
    match utf8SeqLen b with
    | some _ => ([], [b])
    | none => ([none], [])

/-- Token form of `utf8Step`. -/
def utf8StepTok (pending : List Nat) (b : Nat) : List (Option Char) × List Nat :=
  match pending with
  | [] => utf8FreshTok b
  | lead :: rest =>
    if utf8ContOk lead (rest.length + 1) b then
      match utf8SeqLen lead with
      | some n =>
        if rest.length + 2 = n then
          ([some (Char.ofNat (utf8CodePoint ((lead :: rest) ++ [b])))], [])
        else ([], (lead :: rest) ++ [b])
      | none => ([none], [])
    else
      (none :: (utf8FreshTok b).1, (utf8FreshTok b).2)

/-- Token form of `gbkFresh`. -/
def gbkFreshTok (b : Nat) : List (Option Char) × List Nat :=
  if b ≤ 0x7F then ([some (Char.ofNat b)], [])
  else if b = 0x80 then ([some (Char.ofNat 0x20AC)], [])
  else if b ≤ 0xFE then ([], [b])
  else ([none], [])

/-- Token form of `gbkStep`. -/
def gbkStepTok (pending : List Nat) (b : Nat) : List (Option Char) × List Nat :=
  match pending with
  | [] => gbkFreshTok b
  | lead :: _ =>
    if gbkTrailOk b then ([some (gbkChar lead b)], [])
    else (none :: (gbkFreshTok b).1, (gbkFreshTok b).2)

/-- Token form of `Codec.step`. -/
def Codec.stepTok (c : Codec) (pending : List Nat) (b : Nat) :
    List (Option Char) × List Nat :=
  match c with
  | Codec.gbk => gbkStepTok pending b
  | Codec.utf8 => utf8StepTok pending b

/-- Token form of `processBytes`. -/
def processBytesTok (c : Codec) : List Nat → List Nat → List (Option Char) × List Nat
  | pending, [] => ([], pending)
  | pending, b :: bs =>
    ((Codec.stepTok c pending b).1
       ++ (processBytesTok c (Codec.stepTok c pending b).2 bs).1,
     (processBytesTok c (Codec.stepTok c pending b).2 bs).2)

/-- Token form of `runDecoder`: a final call with a leftover incomplete
prefix emits one error token. -/
def runDecoderTok (c : Codec) (pending data : List Nat) (final : Bool) :
    List (Option Char) × List Nat :=
  if final then
    ((processBytesTok c pending data).1 ++
       (if (processBytesTok c pending data).2.isEmpty then [] else [none]),
     [])
  else processBytesTok c pending data

/-- Name of the UTF-8 encoding as the program passes it around. -/
def utf8Name : String := "utf-8"

/-- Name of the GBK encoding, the constructor default of the source. -/
def gbkName : String := "gbk"

/-- Uppercase spelling of the GBK name, for exercising the lowercasing of
the encoding setter. -/
def gbkUpperName : String := "GBK"

/-- First character of the spec's concrete test text. -/
def textCe : String := "测"

/-- Second character of the spec's concrete test text. -/
def textShi : String := "试"

/-- Concrete test text of the spec, whose UTF-8 encoding is
E6 B5 8B E8 AF 95. -/
def textCeShi : String := "测试"

/-- Concrete hex input with space separators from the spec. -/
def sampleHexSpaced : String := "AA BB CC"

/-- Concrete all-invalid hex input from the spec. -/
def sampleHexInvalid : String := "ZZ"

/-- Concrete odd-length hex input from the spec. -/
def sampleHexOdd : String := "ABC"

/-- Expected rendering of the single byte 0xAB. -/
def sampleHexByte : String := "AB "

/-- Character U+1D11E (musical symbol G clef), an astral character that no
GBK byte pair can represent. -/
def astralChar : Char := Char.ofNat 0x1D11E

/-! ## String helper lemmas -/

theorem stringMk_append (a b : List Char) : String.mk a ++ String.mk b = String.mk (a ++ b) :=
  rfl

theorem stringJoin_cons (a : String) (l : List String) :
    String.join (a :: l) = a ++ String.join l := by
  apply String.ext
  simp

theorem intercalateGo_spec (s : String) (as : List String) :
    ∀ acc : String, String.intercalate.go acc s as =
      acc ++ String.join (as.map (fun a => s ++ a)) := by
  induction as with
  | nil => intro acc; simp [String.intercalate.go, String.join]
  | cons a as ih =>
    intro acc
    rw [show String.intercalate.go acc s (a :: as) =
          String.intercalate.go (acc ++ s ++ a) s as from rfl, ih]
    rw [List.map_cons, stringJoin_cons]
    simp [String.append_assoc]

theorem intercalate_cons (s a : String) (as : List String) :
    String.intercalate s (a :: as) = a ++ String.join (as.map (fun x => s ++ x)) := by
  rw [show String.intercalate s (a :: as) = String.intercalate.go a s as from rfl]
  exact intercalateGo_spec s as a

theorem flatten_shiftSpace (f : Nat → List Char) (xs : List Nat) :
    (xs.map (fun y => ' ' :: f y)).flatten ++ [' '] =
      ' ' :: (xs.map (fun y => f y ++ [' '])).flatten := by
  induction xs with
  | nil => rfl
  | cons x xs ih =>
    simp [List.append_assoc, ih]

theorem bytes_to_hex_data (b : List Nat) :
    (bytes_to_hex b).data = (b.map (fun x => (byteHex x).data ++ [' '])).flatten := by
  cases b with
  | nil => rfl
  | cons x xs =>
    unfold bytes_to_hex
    rw [if_neg (by simp)]
    rw [List.map_cons, intercalate_cons, String.data_append, String.data_append]
    simp only [String.data_join, List.map_map, List.map_cons, List.flatten_cons]
    have hg : List.map (String.data ∘ (fun a => spaceString ++ a) ∘ byteHex) xs =
        List.map (fun y => ' ' :: (byteHex y).data) xs :=
      List.map_congr_left (fun y _ => rfl)
    rw [hg, show spaceString.data = [' '] from rfl, List.append_assoc,
        flatten_shiftSpace (fun y => (byteHex y).data) xs]
    simp

/-! ## Hex conversion lemmas -/

theorem isHexDigitChar_hexDigitChar : ∀ n : Nat, n < 16 → isHexDigitChar (hexDigitChar n) = true := by
  decide

theorem hexCharVal_hexDigitChar : ∀ n : Nat, n < 16 → hexCharVal (hexDigitChar n) = n := by
  decide

theorem isHexDigitChar_space : isHexDigitChar ' ' = false := by decide

theorem clean_bytes_to_hex : ∀ b : List Nat, (∀ x ∈ b, x < 256) →
    ((b.map (fun x => (byteHex x).data ++ [' '])).flatten).filter isHexDigitChar
      = (b.map (fun x => (byteHex x).data)).flatten := by
  intro b
  induction b with
  | nil => intro _; rfl
  | cons x xs ih =>
    intro hb
    have hx : x < 256 := hb x (List.mem_cons_self x xs)
    have h1 : x / 16 < 16 := by omega
    have h2 : x % 16 < 16 := by omega
    simp only [List.map_cons, List.flatten_cons, List.filter_append]
    rw [ih (fun y hy => hb y (List.mem_cons_of_mem x hy))]
    congr 1
    simp [List.filter_cons, isHexDigitChar_hexDigitChar _ h1,
      isHexDigitChar_hexDigitChar _ h2, isHexDigitChar_space, byteHex]

theorem hexPairs_flatten : ∀ b : List Nat, (∀ x ∈ b, x < 256) →
    hexPairsToBytes ((b.map (fun x => (byteHex x).data)).flatten) = b := by
  intro b
  induction b with
  | nil => intro _; rfl
  | cons x xs ih =>
    intro hb
    have hx : x < 256 := hb x (List.mem_cons_self x xs)
    have h1 : x / 16 < 16 := by omega
    have h2 : x % 16 < 16 := by omega
    simp only [List.map_cons, List.flatten_cons]
    show hexPairsToBytes
        (hexDigitChar (x / 16) :: hexDigitChar (x % 16) ::
          ((xs.map (fun x => (byteHex x).data)).flatten)) = _
    rw [hexPairsToBytes]
    rw [hexCharVal_hexDigitChar _ h1, hexCharVal_hexDigitChar _ h2,
        ih (fun y hy => hb y (List.mem_cons_of_mem x hy))]
    congr 1
    omega

theorem flatten_byteHex_length (b : List Nat) :
    ((b.map (fun x => (byteHex x).data)).flatten).length = 2 * b.length := by
  induction b with
  | nil => rfl
  | cons x xs ih =>
    simp only [List.map_cons, List.flatten_cons, List.length_append, ih, List.length_cons]
    show 2 + _ = _
    omega

/-- C2: for every byte sequence `b` (bytes are values below 256),
`hex_to_bytes (bytes_to_hex b)` recovers `b` exactly: the two uppercase
digits of every byte survive the hex-digit filter, the trailing and
separating spaces are stripped, the surviving digit count is even, and
pairwise parsing inverts the rendering, so the round trip is lossless. -/
theorem hex_bytes_round_trip (b : List Nat) (hb : ∀ x ∈ b, x < 256) :
    hex_to_bytes (bytes_to_hex b) = b := by
  unfold hex_to_bytes
  have hclean : (bytes_to_hex b).data.filter isHexDigitChar
      = (b.map (fun x => (byteHex x).data)).flatten := by
    rw [bytes_to_hex_data]; exact clean_bytes_to_hex b hb
  rw [hclean]
  cases b with
  | nil => rfl
  | cons x xs =>
    have hlen := flatten_byteHex_length (x :: xs)
    rw [if_neg (by
          intro hcontr
          rw [List.isEmpty_iff] at hcontr
          rw [hcontr] at hlen
          simp at hlen),
        if_neg (by rw [hlen]; omega)]
    exact hexPairs_flatten _ hb

/-- Witness: the round trip evaluated at the concrete byte list
00 AB FF. -/
theorem hex_bytes_round_trip_witness :
    (∀ x ∈ ([0x00, 0xAB, 0xFF] : List Nat), x < 256) ∧
      hex_to_bytes (bytes_to_hex [0x00, 0xAB, 0xFF]) = [0x00, 0xAB, 0xFF] :=
  ⟨by decide, hex_bytes_round_trip [0x00, 0xAB, 0xFF] (by decide)⟩

theorem hexPairsToBytes_length : ∀ l : List Char, (hexPairsToBytes l).length = l.length / 2
  | [] => by simp [hexPairsToBytes]
  | [_] => by simp [hexPairsToBytes]
  | c1 :: c2 :: rest => by
    rw [hexPairsToBytes]
    simp only [List.length_cons, hexPairsToBytes_length rest]
    omega

/-- C6: `hex_to_bytes` depends only on the characters of the class
`[0-9A-Fa-f]` (all others are stripped first), it produces one byte per
two surviving digits with an odd count padded by a `0` nibble (so it
never raises), all-invalid input yields empty bytes, and the concrete
cases of the spec hold: spaced input AA BB CC, invalid input ZZ,
odd-length input ABC, and empty input. -/
theorem hex_to_bytes_lenient (s : String) :
    hex_to_bytes s = hex_to_bytes (String.mk (s.data.filter isHexDigitChar)) ∧
    (hex_to_bytes s).length = ((s.data.filter isHexDigitChar).length + 1) / 2 ∧
    ((∀ ch ∈ s.data, isHexDigitChar ch = false) → hex_to_bytes s = []) ∧
    hex_to_bytes sampleHexSpaced = [0xAA, 0xBB, 0xCC] ∧
    hex_to_bytes sampleHexInvalid = [] ∧
    hex_to_bytes sampleHexOdd = [0xAB, 0xC0] ∧
    hex_to_bytes (String.mk []) = [] := by
  refine ⟨?_, ?_, ?_, by decide, by decide, by decide, rfl⟩
  · have hff : (s.data.filter isHexDigitChar).filter isHexDigitChar
        = s.data.filter isHexDigitChar :=
      List.filter_eq_self.mpr (fun a ha => (List.mem_filter.mp ha).2)
    unfold hex_to_bytes
    rw [show (String.mk (s.data.filter isHexDigitChar)).data
          = s.data.filter isHexDigitChar from rfl, hff]
  · unfold hex_to_bytes
    by_cases he : (s.data.filter isHexDigitChar).isEmpty = true
    · rw [if_pos he]
      rw [List.isEmpty_iff] at he
      simp [he]
    · rw [if_neg he]
      by_cases hp : (s.data.filter isHexDigitChar).length % 2 ≠ 0
      · rw [if_pos hp, hexPairsToBytes_length]
        simp only [List.length_append, List.length_cons, List.length_nil]
      · rw [if_neg hp, hexPairsToBytes_length]
        omega
  · intro hall
    unfold hex_to_bytes
    rw [if_pos ?_]
    rw [List.isEmpty_iff]
    exact List.filter_eq_nil_iff.mpr (fun a ha => by simp [hall a ha])

/-- Witness: all-invalid input ZZ parses to empty bytes, by the lenient
parsing theorem. -/
theorem hex_to_bytes_lenient_witness : hex_to_bytes sampleHexInvalid = [] :=
  (hex_to_bytes_lenient sampleHexInvalid).2.2.1 (by decide)

theorem isUpperHexDigit_hexDigitChar :
    ∀ n : Nat, n < 16 → isUpperHexDigit (hexDigitChar n) = true := by decide

/-- C7: `bytes_to_hex` renders each byte as its two uppercase hex digits
followed by one space (flattened in order, so every nonempty result ends
in a trailing space), the empty byte sequence renders as the empty
string, and the single byte 0xAB renders as the three characters AB
followed by a space. -/
theorem bytes_to_hex_format (data : List Nat) :
    (bytes_to_hex data).data = (data.map (fun b => (byteHex b).data ++ [' '])).flatten ∧
    (∀ b : Nat, b < 256 →
      (byteHex b).data.length = 2 ∧ (byteHex b).data.all isUpperHexDigit = true) ∧
    bytes_to_hex [] = String.mk [] ∧
    bytes_to_hex [0xAB] = sampleHexByte :=
  ⟨bytes_to_hex_data data,
   fun b hb =>
     ⟨rfl, by
       simp [byteHex, isUpperHexDigit_hexDigitChar _ (by omega : b / 16 < 16),
         isUpperHexDigit_hexDigitChar _ (by omega : b % 16 < 16)]⟩,
   rfl, by decide⟩

/-- Witness: the format theorem evaluated at the single byte 0xAB. -/
theorem bytes_to_hex_format_witness :
    (bytes_to_hex [0xAB]).data
        = (([0xAB] : List Nat).map (fun b => (byteHex b).data ++ [' '])).flatten ∧
      (byteHex 0xAB).data.length = 2 ∧ (byteHex 0xAB).data.all isUpperHexDigit = true :=
  ⟨(bytes_to_hex_format [0xAB]).1, (bytes_to_hex_format [0xAB]).2.1 0xAB (by decide)⟩

/-! ## Outbound encoding lemmas -/

theorem utf8EncodeChar_length (ch : Char) : 1 ≤ (utf8EncodeChar ch).length := by
  unfold utf8EncodeChar; split_ifs <;> simp

theorem gbkEncodeChar_length (ch : Char) : 1 ≤ (gbkEncodeChar ch).length := by
  unfold gbkEncodeChar; split_ifs <;> simp

theorem strictEncodeChar_length (c : Codec) (ch : Char) (bs : List Nat)
    (h : strictEncodeChar c ch = some bs) : 1 ≤ bs.length := by
  cases c with
  | gbk =>
    unfold strictEncodeChar at h
    split_ifs at h with hg
    injection h with h
    subst h
    exact gbkEncodeChar_length ch
  | utf8 =>
    unfold strictEncodeChar at h
    injection h with h
    subst h
    exact utf8EncodeChar_length ch

theorem strictEncode_length (c : Codec) :
    ∀ (text : List Char) (bs : List Nat),
      strictEncode c text = some bs → text.length ≤ bs.length := by
  intro text
  induction text with
  | nil =>
    intro bs h
    injection h with h
    subst h
    simp
  | cons ch rest ih =>
    intro bs h
    unfold strictEncode at h
    cases hc : strictEncodeChar c ch with
    | none => rw [hc] at h; cases h
    | some cbs =>
      rw [hc] at h
      cases hr : strictEncode c rest with
      | none => rw [hr] at h; cases h
      | some rbs =>
        rw [hr] at h
        injection h with h
        subst h
        have h1 := strictEncodeChar_length c ch cbs hc
        have h2 := ih rbs hr
        simp only [List.length_append, List.length_cons]
        omega

theorem replaceEncodeChar_length (c : Codec) (ch : Char) :
    1 ≤ (replaceEncodeChar c ch).length := by
  unfold replaceEncodeChar
  cases hc : strictEncodeChar c ch with
  | none => simp
  | some bs => simpa using strictEncodeChar_length c ch bs hc

theorem replaceEncode_length (c : Codec) (text : List Char) :
    text.length ≤ ((text.map (replaceEncodeChar c)).flatten).length := by
  induction text with
  | nil => simp
  | cons ch rest ih =>
    simp only [List.map_cons, List.flatten_cons, List.length_append, List.length_cons]
    have := replaceEncodeChar_length c ch
    omega

/-- C8 counterexample: encoding the astral character U+1D11E as GBK
substitutes the single byte `'?'`, so the returned sequence has length 1,
strictly below the two bytes the character would occupy were it
representable in GBK; the length clause of the claim fails here. -/
theorem text_to_bytes_length_counterexample :
    (text_to_bytes [astralChar] gbkName).map List.length = some 1 ∧
      lenIfRepresentable Codec.gbk [astralChar] = 2 := by decide

/-- C8 amended: for GBK and UTF-8, `text_to_bytes` never raises — it
always returns some byte sequence, substituting the one-byte placeholder
`'?'` for each unencodable character — and the result has at least one
byte per input character (but an unencodable character may yield FEWER
bytes than it would occupy were it representable). -/
theorem text_to_bytes_total (text : List Char) (enc : String)
    (henc : enc = gbkName ∨ enc = utf8Name) :
    ∃ bs : List Nat, text_to_bytes text enc = some bs ∧ text.length ≤ bs.length := by
  have hcodec : ∃ c : Codec, codecOf (lowerString enc) = some c := by
    rcases henc with rfl | rfl
    · exact ⟨Codec.gbk, by decide⟩
    · exact ⟨Codec.utf8, by decide⟩
  obtain ⟨c, hc⟩ := hcodec
  cases hs : strictEncode c text with
  | some bs =>
    exact ⟨bs, by simp only [text_to_bytes, hc, hs], strictEncode_length c text bs hs⟩
  | none =>
    exact ⟨_, by simp only [text_to_bytes, hc, hs], replaceEncode_length c text⟩

/-- Witness: totality of `text_to_bytes` at the concrete astral
character with GBK. -/
theorem text_to_bytes_total_witness :
    ∃ bs : List Nat, text_to_bytes [astralChar] gbkName = some bs ∧
      ([astralChar] : List Char).length ≤ bs.length :=
  text_to_bytes_total [astralChar] gbkName (Or.inl rfl)

/-! ## Incremental decoder lemmas -/

theorem processBytes_append (err : List Char) (c : Codec) (xs : List Nat) :
    ∀ p ys : List Nat,
      processBytes err c p (xs ++ ys)
        = ((processBytes err c p xs).1
             ++ (processBytes err c (processBytes err c p xs).2 ys).1,
           (processBytes err c (processBytes err c p xs).2 ys).2) := by
  induction xs with
  | nil => intro p ys; simp [processBytes]
  | cons b bs ih =>
    intro p ys
    simp only [List.cons_append, processBytes, List.append_eq, ih, List.append_assoc]

theorem utf8SeqLen_cases (b n : Nat) (h : utf8SeqLen b = some n) :
    (b ≤ 0x7F ∧ n = 1) ∨ (0x7F < b ∧ 2 ≤ n ∧ n ≤ 4) := by
  unfold utf8SeqLen at h
  split_ifs at h with h1 h2 h3 h4 <;> injection h with h <;> omega

theorem utf8Fresh_pendingOk (err : List Char) (b : Nat) :
    utf8PendingOk (utf8Fresh err b).2 = true := by
  unfold utf8Fresh
  split_ifs with h1
  · rfl
  · cases hs : utf8SeqLen b with
    | none => simp [hs, utf8PendingOk]
    | some n =>
      have hc := utf8SeqLen_cases b n hs
      simp only [hs, utf8PendingOk, utf8ContsOk, Bool.and_eq_true, decide_eq_true_eq,
        List.length_nil, Bool.and_true]
      omega

theorem utf8ContsOk_append (lead : Nat) (rest : List Nat) :
    ∀ pos b : Nat, utf8ContsOk lead pos rest = true →
      utf8ContOk lead (pos + rest.length) b = true →
      utf8ContsOk lead pos (rest ++ [b]) = true := by
  induction rest with
  | nil =>
    intro pos b _ h2
    simp only [List.nil_append, utf8ContsOk, Bool.and_eq_true]
    exact ⟨by simpa using h2, trivial⟩
  | cons x xs ih =>
    intro pos b h1 h2
    simp only [List.cons_append, utf8ContsOk, Bool.and_eq_true] at h1 ⊢
    refine ⟨h1.1, ih (pos + 1) b h1.2 ?_⟩
    have hlen : pos + 1 + xs.length = pos + (x :: xs).length := by
      simp only [List.length_cons]
      omega
    rw [hlen]
    exact h2

theorem utf8Step_pendingOk (err : List Char) (p : List Nat) (b : Nat)
    (hp : utf8PendingOk p = true) : utf8PendingOk (utf8Step err p b).2 = true := by
  cases p with
  | nil => exact utf8Fresh_pendingOk err b
  | cons lead rest =>
    cases hl : utf8SeqLen lead with
    | none => simp [utf8PendingOk, hl] at hp
    | some n =>
      simp only [utf8PendingOk, hl, Bool.and_eq_true, decide_eq_true_eq] at hp
      obtain ⟨⟨hn2, hlt⟩, hconts⟩ := hp
      unfold utf8Step
      by_cases hcont : utf8ContOk lead (rest.length + 1) b = true
      · simp only [hcont, if_true, hl]
        by_cases hfin : rest.length + 2 = n
        · simp [hfin, utf8PendingOk]
        · simp only [hfin, if_false]
          rw [show (lead :: rest) ++ [b] = lead :: (rest ++ [b]) from rfl]
          simp only [utf8PendingOk, hl, Bool.and_eq_true, decide_eq_true_eq,
            List.length_append, List.length_cons, List.length_nil]
          refine ⟨⟨hn2, by omega⟩, utf8ContsOk_append lead rest 1 b hconts ?_⟩
          rw [show 1 + rest.length = rest.length + 1 from by omega]
          exact hcont
      · simp only [hcont, if_false]
        exact utf8Fresh_pendingOk err b

theorem gbkFresh_pendingOk (err : List Char) (b : Nat) :
    gbkPendingOk (gbkFresh err b).2 = true := by
  unfold gbkFresh
  split_ifs with h1 h2 h3
  · rfl
  · rfl
  · simp only [gbkPendingOk, decide_eq_true_eq]
    omega
  · rfl

theorem gbkStep_pendingOk (err : List Char) (p : List Nat) (b : Nat)
    (hp : gbkPendingOk p = true) : gbkPendingOk (gbkStep err p b).2 = true := by
  cases p with
  | nil => exact gbkFresh_pendingOk err b
  | cons lead rest =>
    unfold gbkStep
    by_cases ht : gbkTrailOk b = true
    · simp [ht, gbkPendingOk]
    · simp only [ht, if_false]
      exact gbkFresh_pendingOk err b

theorem step_pendingOk (err : List Char) (c : Codec) (p : List Nat) (b : Nat)
    (hp : Codec.pendingOk c p = true) : Codec.pendingOk c (Codec.step err c p b).2 = true := by
  cases c with
  | gbk => exact gbkStep_pendingOk err p b hp
  | utf8 => exact utf8Step_pendingOk err p b hp

theorem processBytes_pendingOk (err : List Char) (c : Codec) :
    ∀ data p : List Nat, Codec.pendingOk c p = true →
      Codec.pendingOk c (processBytes err c p data).2 = true := by
  intro data
  induction data with
  | nil => intro p hp; exact hp
  | cons b bs ih => intro p hp; exact ih _ (step_pendingOk err c p b hp)

theorem utf8PendingOk_length (p : List Nat) (h : utf8PendingOk p = true) : p.length ≤ 3 := by
  cases p with
  | nil => simp
  | cons lead rest =>
    cases hl : utf8SeqLen lead with
    | none => simp [utf8PendingOk, hl] at h
    | some n =>
      simp only [utf8PendingOk, hl, Bool.and_eq_true, decide_eq_true_eq] at h
      have := utf8SeqLen_cases lead n hl
      simp only [List.length_cons]
      omega

theorem gbkPendingOk_length (p : List Nat) (h : gbkPendingOk p = true) : p.length ≤ 3 := by
  cases p with
  | nil => simp
  | cons l rest =>
    cases rest with
    | nil => simp
    | cons x xs => simp [gbkPendingOk] at h

theorem pendingOk_length (c : Codec) (p : List Nat) (h : Codec.pendingOk c p = true) :
    p.length ≤ 3 := by
  cases c with
  | gbk => exact gbkPendingOk_length p h
  | utf8 => exact utf8PendingOk_length p h

theorem pendingOk_not_complete (c : Codec) (p : List Nat) (h : Codec.pendingOk c p = true) :
    decodesToChar c p = false := by
  cases c with
  | gbk =>
    cases p with
    | nil => rfl
    | cons l rest =>
      cases rest with
      | nil =>
        simp only [Codec.pendingOk, gbkPendingOk, decide_eq_true_eq] at h
        show decide (l ≤ 0x80) = false
        rw [decide_eq_false (by omega : ¬ l ≤ 0x80)]
      | cons x xs =>
        cases xs with
        | nil => simp [Codec.pendingOk, gbkPendingOk] at h
        | cons y ys => simp [Codec.pendingOk, gbkPendingOk] at h
  | utf8 =>
    cases p with
    | nil => rfl
    | cons lead rest =>
      cases hl : utf8SeqLen lead with
      | none => simp [Codec.pendingOk, utf8PendingOk, hl] at h
      | some n =>
        simp only [Codec.pendingOk, utf8PendingOk, hl, Bool.and_eq_true, decide_eq_true_eq] at h
        simp only [decodesToChar, hl]
        rw [decide_eq_false (by omega : ¬ (rest.length + 1 = n))]
        simp

theorem utf8Fresh_eq_tok (err : List Char) (b : Nat) :
    utf8Fresh err b = (((utf8FreshTok b).1.map (expandTok err)).flatten, (utf8FreshTok b).2) := by
  unfold utf8Fresh utf8FreshTok
  split_ifs with h1
  · simp [expandTok]
  · cases hs : utf8SeqLen b <;> simp [expandTok]

theorem utf8Step_eq_tok (err : List Char) (p : List Nat) (b : Nat) :
    utf8Step err p b
      = (((utf8StepTok p b).1.map (expandTok err)).flatten, (utf8StepTok p b).2) := by
  cases p with
  | nil => exact utf8Fresh_eq_tok err b
  | cons lead rest =>
    unfold utf8Step utf8StepTok
    by_cases hcont : utf8ContOk lead (rest.length + 1) b = true
    · simp only [hcont, if_true]
      cases hl : utf8SeqLen lead with
      | none => simp [expandTok]
      | some n =>
        by_cases hfin : rest.length + 2 = n
        · simp [hfin, expandTok]
        · simp [hfin, expandTok]
    · simp only [hcont, if_false]
      rw [utf8Fresh_eq_tok err b]
      simp [expandTok]

theorem gbkFresh_eq_tok (err : List Char) (b : Nat) :
    gbkFresh err b = (((gbkFreshTok b).1.map (expandTok err)).flatten, (gbkFreshTok b).2) := by
  unfold gbkFresh gbkFreshTok
  split_ifs <;> simp [expandTok]

theorem gbkStep_eq_tok (err : List Char) (p : List Nat) (b : Nat) :
    gbkStep err p b
      = (((gbkStepTok p b).1.map (expandTok err)).flatten, (gbkStepTok p b).2) := by
  cases p with
  | nil => exact gbkFresh_eq_tok err b
  | cons lead rest =>
    unfold gbkStep gbkStepTok
    by_cases ht : gbkTrailOk b = true
    · simp [ht, expandTok]
    · simp only [ht, if_false]
      rw [gbkFresh_eq_tok err b]
      simp [expandTok]

theorem step_eq_tok (err : List Char) (c : Codec) (p : List Nat) (b : Nat) :
    Codec.step err c p b
      = (((Codec.stepTok c p b).1.map (expandTok err)).flatten, (Codec.stepTok c p b).2) := by
  cases c with
  | gbk => exact gbkStep_eq_tok err p b
  | utf8 => exact utf8Step_eq_tok err p b

theorem processBytes_eq_tok (err : List Char) (c : Codec) :
    ∀ data p : List Nat,
      processBytes err c p data
        = (((processBytesTok c p data).1.map (expandTok err)).flatten,
           (processBytesTok c p data).2) := by
  intro data
  induction data with
  | nil => intro p; simp [processBytes, processBytesTok]
  | cons b bs ih =>
    intro p
    simp only [processBytes, processBytesTok, step_eq_tok err c p b, ih,
      List.map_append, List.flatten_append]

theorem runDecoder_eq_tok (err : List Char) (c : Codec) (p data : List Nat) (final : Bool) :
    runDecoder err c p data final
      = (((runDecoderTok c p data final).1.map (expandTok err)).flatten,
         (runDecoderTok c p data final).2) := by
  unfold runDecoder runDecoderTok
  cases final with
  | false => simp [processBytes_eq_tok err c data p]
  | true =>
    rw [processBytes_eq_tok err c data p]
    by_cases hp : (processBytesTok c p data).2.isEmpty = true
    · simp [hp, expandTok]
    · simp [hp, expandTok]

theorem flatten_expandTok_nil (toks : List (Option Char)) :
    ((toks.map (expandTok [])).flatten) = toks.filterMap id := by
  induction toks with
  | nil => rfl
  | cons t ts ih => cases t <;> simp [expandTok, ih]

theorem flatten_expandTok_replace (toks : List (Option Char)) :
    ((toks.map (expandTok [replacementChar])).flatten)
      = toks.map (fun t => t.getD replacementChar) := by
  induction toks with
  | nil => rfl
  | cons t ts ih => cases t <;> simp [expandTok, ih]

/-! ## Claim theorems about the incremental decoder -/

/-- C1: on a fresh decoder (empty carry) with a supported encoding, any
split of a byte sequence into two non-final decode calls yields the same
concatenated text (and the same final state) as decoding the whole
sequence in one non-final call; concretely, the UTF-8 bytes of the test
text split after the lead byte E8 yield the first two characters, then
the third on the second call, matching the whole-sequence decode, and
the first call alone omits the incomplete trailing character. -/
theorem decode_split_concat :
    (∀ (h : EncodingHandler) (c : Codec), codecOf h.encoding = some c → h.carry = [] →
      ∀ b1 b2 : List Nat, ∃ t1 h1 t2 h2 t h3,
        h.decode b1 false = some (t1, h1) ∧
        h1.decode b2 false = some (t2, h2) ∧
        h.decode (b1 ++ b2) false = some (t, h3) ∧
        t1 ++ t2 = t ∧ h2 = h3) ∧
    (EncodingHandler.init utf8Name).decode [0xE6, 0xB5, 0x8B, 0xE8] false
        = some (textCe, EncodingHandler.mk utf8Name [0xE8]) ∧
    (EncodingHandler.mk utf8Name [0xE8]).decode [0xAF, 0x95] false
        = some (textShi, EncodingHandler.mk utf8Name []) ∧
    (EncodingHandler.init utf8Name).decode [0xE6, 0xB5, 0x8B, 0xE8, 0xAF, 0x95] false
        = some (textCeShi, EncodingHandler.mk utf8Name []) := by
  refine ⟨?_, by decide, by decide, by decide⟩
  intro h c hc hcar b1 b2
  refine ⟨String.mk (processBytes [] c [] b1).1,
          EncodingHandler.mk h.encoding (processBytes [] c [] b1).2,
          String.mk (processBytes [] c (processBytes [] c [] b1).2 b2).1,
          EncodingHandler.mk h.encoding (processBytes [] c (processBytes [] c [] b1).2 b2).2,
          String.mk (processBytes [] c [] (b1 ++ b2)).1,
          EncodingHandler.mk h.encoding (processBytes [] c [] (b1 ++ b2)).2,
          ?_, ?_, ?_, ?_, ?_⟩
  · simp [EncodingHandler.decode, hc, hcar, decodeAttempt, runDecoder]
  · simp [EncodingHandler.decode, hc, decodeAttempt, runDecoder]
  · simp [EncodingHandler.decode, hc, hcar, decodeAttempt, runDecoder]
  · rw [stringMk_append, processBytes_append [] c b1 [] b2]
  · rw [processBytes_append [] c b1 [] b2]

/-- Witness: the split-invariance theorem applied to the UTF-8 encoding
of the test text, torn after its fourth byte. -/
theorem decode_split_concat_witness :
    ∃ t1 h1 t2 h2 t h3,
      (EncodingHandler.mk utf8Name []).decode [0xE6, 0xB5, 0x8B, 0xE8] false = some (t1, h1) ∧
      h1.decode [0xAF, 0x95] false = some (t2, h2) ∧
      (EncodingHandler.mk utf8Name []).decode ([0xE6, 0xB5, 0x8B, 0xE8] ++ [0xAF, 0x95]) false
        = some (t, h3) ∧
      t1 ++ t2 = t ∧ h2 = h3 :=
  decode_split_concat.1 (EncodingHandler.mk utf8Name []) Codec.utf8 (by decide) rfl
    [0xE6, 0xB5, 0x8B, 0xE8] [0xAF, 0x95]

/-- C3 counterexample: the decoder built by the source uses the
`'ignore'` error handler, so an invalid byte (0xFF can never occur in
UTF-8) produces NO placeholder — the returned text is empty — and a
leftover incomplete prefix at `final=True` is likewise dropped without a
placeholder, contrary to the claim's required substitution. -/
theorem invalid_bytes_dropped_counterexample :
    (EncodingHandler.init utf8Name).decode [0xFF] false
        = some (String.mk [], EncodingHandler.mk utf8Name []) ∧
    (EncodingHandler.mk utf8Name [0xE4]).decode [] true
        = some (String.mk [], EncodingHandler.mk utf8Name []) ∧
    (String.mk []).data.contains replacementChar = false := by decide

/-- C3 amended: invalid-for-encoding byte sequences never raise and never
block progress, but they are silently DROPPED (error handler
`'ignore'`), not replaced by a placeholder.  For every supported handler
(GBK or UTF-8, any carry), every chunk — mixed valid and invalid bytes
included — and either final flag, `decode` returns exactly the decoded
characters of the reference token run with every error token removed:
each invalid sequence, and an unresolvable leftover prefix at a final
call, contributes no output at all.  Placeholder substitution, by
contrast, is the whole-chunk replace decode of the `except` branch,
which maps exactly those error tokens to U+FFFD. -/
theorem decode_ignores_invalid (h : EncodingHandler) (c : Codec) (data : List Nat)
    (final : Bool) (hc : codecOf h.encoding = some c) :
    h.decode data final
      = some (String.mk ((runDecoderTok c h.carry data final).1.filterMap id),
          EncodingHandler.mk h.encoding (runDecoderTok c h.carry data final).2) ∧
    replaceDecode c data
      = (runDecoderTok c [] data true).1.map (fun t => t.getD replacementChar) := by
  constructor
  · have hrun := runDecoder_eq_tok [] c h.carry data final
    simp [EncodingHandler.decode, hc, decodeAttempt, hrun, flatten_expandTok_nil]
  · have hrun := runDecoder_eq_tok [replacementChar] c [] data true
    simp [replaceDecode, hrun, flatten_expandTok_replace]

/-- Witness: a mixed chunk under GBK at a non-final call — the valid
byte 0x41, the invalid byte 0xFF (dropped with no placeholder), then a
valid double-byte pair — evaluated through the drop theorem. -/
theorem decode_ignores_invalid_witness :
    (EncodingHandler.mk gbkName []).decode [0x41, 0xFF, 0x81, 0x40] false
      = some
          (String.mk
            ((runDecoderTok Codec.gbk [] [0x41, 0xFF, 0x81, 0x40] false).1.filterMap id),
          EncodingHandler.mk gbkName
            (runDecoderTok Codec.gbk [] [0x41, 0xFF, 0x81, 0x40] false).2) ∧
    replaceDecode Codec.gbk [0x41, 0xFF, 0x81, 0x40]
      = (runDecoderTok Codec.gbk [] [0x41, 0xFF, 0x81, 0x40] true).1.map
          (fun t => t.getD replacementChar) :=
  decode_ignores_invalid (EncodingHandler.mk gbkName []) Codec.gbk
    [0x41, 0xFF, 0x81, 0x40] false (by decide)

/-- C4: assigning an encoding whose lowercase form differs from the
current one leaves the carry buffer empty, and every subsequent decode of
the switched handler behaves exactly as a freshly constructed handler for
the new encoding — the previously held bytes can never appear in any
subsequent output, under any encoding. -/
theorem switch_encoding_clears_carry (h : EncodingHandler) (v : String)
    (hne : lowerString v ≠ h.encoding) :
    (h.setEncoding v).carry = [] ∧
    ∀ (data : List Nat) (final : Bool),
      (h.setEncoding v).decode data final = (EncodingHandler.init v).decode data final := by
  unfold EncodingHandler.setEncoding
  rw [if_pos hne]
  exact ⟨rfl, fun _ _ => rfl⟩

/-- Witness: switching a GBK handler holding a pending lead byte to UTF-8
clears the carry and makes it behave as a fresh UTF-8 handler. -/
theorem switch_encoding_clears_carry_witness :
    ((EncodingHandler.mk gbkName [0x81]).setEncoding utf8Name).carry = [] ∧
    ∀ (data : List Nat) (final : Bool),
      ((EncodingHandler.mk gbkName [0x81]).setEncoding utf8Name).decode data final
        = (EncodingHandler.init utf8Name).decode data final :=
  switch_encoding_clears_carry (EncodingHandler.mk gbkName [0x81]) utf8Name (by decide)

/-- C5: for a supported encoding, the incremental decode attempt always
succeeds (the `'ignore'` decoder never raises), so `decode` always
returns a result; and the `except` branch of the source is exactly the
recovery equation: were the attempt to fault, the result would be the
whole-chunk replacement decode with a reset (empty-carry) state. -/
theorem decode_never_raises (h : EncodingHandler) (c : Codec) (data : List Nat) (final : Bool)
    (hc : codecOf h.encoding = some c) :
    (∃ r, decodeAttempt c h.carry data final = Except.ok r) ∧
    (∃ t h', h.decode data final = some (t, h')) ∧
    (∀ e : Unit, decodeAttempt c h.carry data final = Except.error e →
      h.decode data final = some (String.mk (replaceDecode c data), h.reset)) := by
  refine ⟨⟨runDecoder [] c h.carry data final, rfl⟩, ?_, ?_⟩
  · refine ⟨String.mk (runDecoder [] c h.carry data final).1,
            EncodingHandler.mk h.encoding (runDecoder [] c h.carry data final).2, ?_⟩
    simp [EncodingHandler.decode, hc, decodeAttempt]
  · intro e he
    simp [decodeAttempt] at he

/-- Witness: the no-raise theorem at a concrete GBK handler and a lone
lead byte with a final decode call. -/
theorem decode_never_raises_witness :
    (∃ r, decodeAttempt Codec.gbk [] [0x81] true = Except.ok r) ∧
    (∃ t h', (EncodingHandler.mk gbkName []).decode [0x81] true = some (t, h')) ∧
    (∀ e : Unit, decodeAttempt Codec.gbk [] [0x81] true = Except.error e →
      (EncodingHandler.mk gbkName []).decode [0x81] true
        = some (String.mk (replaceDecode Codec.gbk [0x81]),
            (EncodingHandler.mk gbkName []).reset)) :=
  decode_never_raises (EncodingHandler.mk gbkName []) Codec.gbk [0x81] true (by decide)

/-- C9: construction, non-final decode, reset and encoding assignment all
preserve the carry-buffer invariant: for the active supported codec the
carry is a well-formed strictly-incomplete prefix; in particular after a
non-final decode it holds at most 3 bytes and never a complete decodable
sequence. -/
theorem carry_buffer_invariant :
    (∀ enc : String, carryOk (EncodingHandler.init enc)) ∧
    (∀ (h : EncodingHandler) (data : List Nat) (t : String) (h' : EncodingHandler),
      carryOk h → h.decode data false = some (t, h') →
      carryOk h' ∧ h'.carry.length ≤ 3 ∧
        ∀ c : Codec, codecOf h'.encoding = some c → decodesToChar c h'.carry = false) ∧
    (∀ h : EncodingHandler, carryOk h.reset) ∧
    (∀ (h : EncodingHandler) (v : String), carryOk h → carryOk (h.setEncoding v)) := by
  refine ⟨?_, ?_, ?_, ?_⟩
  · intro enc c _
    cases c <;> rfl
  · intro h data t h' hok hdec
    cases hc : codecOf h.encoding with
    | none => simp [EncodingHandler.decode, hc] at hdec
    | some c =>
      have hpend : Codec.pendingOk c h.carry = true := hok c hc
      have hnext := processBytes_pendingOk [] c data h.carry hpend
      have hform : h.decode data false
          = some (String.mk (processBytes [] c h.carry data).1,
              EncodingHandler.mk h.encoding (processBytes [] c h.carry data).2) := by
        simp [EncodingHandler.decode, hc, decodeAttempt, runDecoder]
      rw [hform] at hdec
      injection hdec with hdec
      injection hdec with hdec1 hdec2
      subst hdec2
      refine ⟨?_, pendingOk_length c _ hnext, ?_⟩
      · intro c' hc'
        have hcc : c = c' := by
          rw [show (EncodingHandler.mk h.encoding
                (processBytes [] c h.carry data).2).encoding = h.encoding from rfl] at hc'
          injection hc.symm.trans hc'
        subst hcc
        exact hnext
      · intro c' hc'
        have hcc : c = c' := by
          rw [show (EncodingHandler.mk h.encoding
                (processBytes [] c h.carry data).2).encoding = h.encoding from rfl] at hc'
          injection hc.symm.trans hc'
        subst hcc
        exact pendingOk_not_complete c _ hnext
  · intro h c _
    cases c <;> rfl
  · intro h v hok c hc
    unfold EncodingHandler.setEncoding at hc ⊢
    by_cases hne : lowerString v ≠ h.encoding
    · rw [if_pos hne] at hc ⊢
      cases c <;> rfl
    · rw [if_neg hne] at hc ⊢
      exact hok c hc

/-- Witness: the decode clause of the invariant theorem at a fresh UTF-8
handler fed one lead byte, whose carry afterwards is that single byte. -/
theorem carry_buffer_invariant_witness :
    carryOk (EncodingHandler.mk utf8Name [0xE6]) ∧
      (EncodingHandler.mk utf8Name [0xE6]).carry.length ≤ 3 ∧
      ∀ c : Codec, codecOf (EncodingHandler.mk utf8Name [0xE6]).encoding = some c →
        decodesToChar c (EncodingHandler.mk utf8Name [0xE6]).carry = false :=
  carry_buffer_invariant.2.1 (EncodingHandler.mk utf8Name []) [0xE6] (String.mk [])
    (EncodingHandler.mk utf8Name [0xE6])
    (fun c _ => by cases c <;> rfl)
    (by decide)

/-- C10: assigning an encoding whose lowercase form equals the current
encoding is a no-op: the handler (carry buffer included) is unchanged, so
bytes held in flight survive a same-encoding assignment. -/
theorem same_encoding_assignment_noop (h : EncodingHandler) (v : String)
    (he : lowerString v = h.encoding) : h.setEncoding v = h := by
  unfold EncodingHandler.setEncoding
  rw [if_neg (fun hcontr => hcontr he)]

/-- Witness: assigning uppercase GBK to a GBK handler holding a pending
lead byte changes nothing. -/
theorem same_encoding_assignment_noop_witness :
    (EncodingHandler.mk gbkName [0x81]).setEncoding gbkUpperName
      = EncodingHandler.mk gbkName [0x81] :=
  same_encoding_assignment_noop (EncodingHandler.mk gbkName [0x81]) gbkUpperName (by decide)

end PySerial
